import Mathlib

/-!
Shallow embedding of the `dexterous-datalog` evaluation core
(`src/datalog/src`): name interning, variable bindings, the candidate
enumerator (`counter.rs`), goals, rules, queries, and the `DataSet`
fixpoint loop (`data_set.rs`).  Machine integers (`usize`) are modelled
as `Nat`; `Vec<T>` as `List T`; `BTreeSet<T>` as `Finset T` (iteration
order, when needed, is recovered with `Finset.sort` over the
lexicographic order, matching `BTreeSet`'s ascending iteration).
-/

namespace Datalog

/-- `counter.rs`: the `Counter` struct.  The Rust field `end` is a Lean
keyword, so it is called `stop` here. -/
structure Counter where
  length : Nat
  max : Nat
  cursor : Nat
  stop : Nat
deriving DecidableEq

/-- `Counter::new(length, max)`: cursor starts at 0 and the end marker is
`max.pow(length as u32 + 1)` — note the `+ 1`, taken verbatim from the
source. -/
def Counter.new (length max : Nat) : Counter :=
  { length := length, max := max, cursor := 0, stop := max ^ (length + 1) }

/-- `Counter::is_empty`. -/
def Counter.is_empty (c : Counter) : Bool :=
  c.cursor == c.stop || c.length == 0

/-- The `buf` built by one call of `Counter::next` at a given cursor:
`buf[i] = (cursor / max.pow(i)) % max` for `i in 0..length`. -/
def counterVec (length max cursor : Nat) : List Nat :=
  (List.range length).map (fun i => cursor / max ^ i % max)

/-- `Counter::next` (from `impl Iterator for Counter`): `None` when
`is_empty`, otherwise yield the current `buf` and advance the cursor. -/
def Counter.next (c : Counter) : Option (List Nat × Counter) :=
  if c.is_empty then none
  else some (counterVec c.length c.max c.cursor, { c with cursor := c.cursor + 1 })

/-- The remaining items a `Counter` will yield when iterated to
exhaustion (for the reachable states, where `cursor ≤ stop`). -/
def Counter.items (c : Counter) : List (List Nat) :=
  if c.length = 0 then []
  else (List.range (c.stop - c.cursor)).map (fun k => counterVec c.length c.max (c.cursor + k))

/-- Everything `Counter::new(length, max)` yields, in order. -/
def counterList (length max : Nat) : List (List Nat) :=
  (Counter.new length max).items

/-- `binding.rs`: `Binding` is a newtype over `Vec<usize>`. -/
abbrev Binding := List Nat

/-- `Binding::insert`: linear scan for `value`; return its slot when
present, otherwise append it and return the new slot.  The mutated
binding is returned alongside the slot. -/
def Binding.insert (b : Binding) (value : Nat) : Nat × Binding :=
  if value ∈ b then (List.indexOf value b, b) else (b.length, b ++ [value])

/-- `name_pool.rs`: `NamePool`. -/
structure NamePool where
  names : List String
deriving DecidableEq

/-- `NamePool::len`. -/
def NamePool.len (p : NamePool) : Nat := p.names.length

/-- `NamePool::add_name`: linear scan for an equal string; return its
index when present, otherwise append it and return the new index.  The
mutated pool is returned alongside the index. -/
def NamePool.add_name (p : NamePool) (name : String) : Nat × NamePool :=
  if name ∈ p.names then (List.indexOf name p.names, p)
  else (p.names.length, ⟨p.names ++ [name]⟩)

/-- `parser.rs` syntax: a term is a constant name or a variable name
(`Term::Const(Const(..))` / `Term::Var(Var(..))`); named `TermSyntax` as
in `data_set.rs`'s import, since `Term` is the evaluator's resolved
term type. -/
inductive TermSyntax where
  | const (c : String)
  | var (v : String)
deriving DecidableEq

/-- `parser.rs`: `Atom(Relation, Vec<Term>)`. -/
structure Atom where
  relation : String
  terms : List TermSyntax
deriving DecidableEq

/-- `parser.rs`: `Fact(Relation, Vec<Const>)`. -/
structure Fact where
  relation : String
  constants : List String
deriving DecidableEq

/-- `parser.rs`: `Rule(Atom, Vec<Atom>)` (head, body). -/
structure RuleSyntax where
  head : Atom
  body : List Atom
deriving DecidableEq

/-- `parser.rs`: `Statement`. -/
inductive Statement where
  | fact (f : Fact)
  | rule (r : RuleSyntax)
deriving DecidableEq

/-- `parser.rs`: `Program(Vec<Statement>)`. -/
abbrev Program := List Statement

/-- `parser.rs`: `Query(Vec<Atom>)`. -/
abbrev QuerySyntax := List Atom

/-- `data_set.rs`: `Tuple(Vec<usize>)`. -/
abbrev Tuple := List Nat

/-- `data_set.rs`: the resolved `Term` enum. -/
inductive Term where
  | Constant (c : Nat)
  | Variable (v : Nat)
deriving DecidableEq

/-- `goal.rs`: `Goal`. -/
structure Goal where
  relation : Nat
  terms : List Term
deriving DecidableEq

/-- `rule.rs`: `Rule`. -/
structure Rule where
  goal : Goal
  sub_goals : List Goal
  vars : Binding
deriving DecidableEq

/-- `query.rs`: `Query`. -/
structure Query where
  vars : Binding
  sub_goals : List Goal
deriving DecidableEq

/-- `data_set.rs`: `DataSet`.  `relations` is indexed by relation id. -/
structure DataSet where
  last_len : Nat
  rules : List Rule
  relation_names : NamePool
  constant_names : NamePool
  variable_names : NamePool
  relations : List (Finset Tuple)
deriving DecidableEq

/-- `DataSet::default()`: everything empty, `last_len = 0`. -/
def DataSet.default : DataSet := ⟨0, [], ⟨[]⟩, ⟨[]⟩, ⟨[]⟩, []⟩

/-- `DataSet::len`: the sum of the sizes of all relations. -/
def DataSet.len (d : DataSet) : Nat := (d.relations.map Finset.card).sum

/-- `DataSet::is_dirty`. -/
def DataSet.is_dirty (d : DataSet) : Bool := d.last_len != d.len

/-- `DataSet::constants_count`. -/
def DataSet.constants_count (d : DataSet) : Nat := d.constant_names.len

/-- The relation stored at index `i` (`self.relations[i]`; out-of-range
reads, which panic in Rust and are unreachable through the public API,
read as the empty relation). -/
def relAt (d : DataSet) (i : Nat) : Finset Tuple := d.relations.getD i ∅

/-- `Goal::make_tuple`: substitute each variable slot through the
binding and keep constants (`binding[*v]` panics in Rust when out of
range; unreachable slots read as 0 here). -/
def Goal.make_tuple (g : Goal) (binding : Binding) : Tuple :=
  g.terms.map (fun t =>
    match t with
    | Term.Constant c => c
    | Term.Variable v => binding.getD v 0)

/-- `Goal::is_satisfied_by`: membership of the substituted tuple in the
goal's relation. -/
def Goal.is_satisfied_by (g : Goal) (binding : Binding) (d : DataSet) : Bool :=
  decide (g.make_tuple binding ∈ relAt d g.relation)

/-- `query.rs`: `satisfies_all`. -/
def satisfies_all (vars : Binding) (goals : List Goal) (d : DataSet) : Bool :=
  goals.all (fun g => g.is_satisfied_by vars d)

/-- `Rule::step`: filter every candidate binding from the counter by
`satisfies_all`, map the survivors through the head's `make_tuple`, and
collect into a set. -/
def Rule.step (r : Rule) (d : DataSet) : Finset Tuple :=
  (((counterList r.vars.length d.constants_count).filter
      (fun b => satisfies_all b r.sub_goals d)).map r.goal.make_tuple).toFinset

/-- `Rule::relation`. -/
def Rule.relation (r : Rule) : Nat := r.goal.relation

/-- `Query::bindings`: the set of satisfying candidate bindings. -/
def Query.bindings (q : Query) (d : DataSet) : Finset Binding :=
  ((counterList q.vars.length d.constants_count).filter
      (fun b => satisfies_all b q.sub_goals d)).toFinset

/-- `DataSet::declare_relation`: intern the name; when the returned id
equals the current number of relations, push a fresh empty relation. -/
def DataSet.declare_relation (d : DataSet) (name : String) : Nat × DataSet :=
  let p := d.relation_names.add_name name
  let d1 : DataSet := { d with relation_names := p.2 }
  if p.1 = d1.relations.length
  then (p.1, { d1 with relations := d1.relations ++ [∅] })
  else (p.1, d1)

/-- One iteration of the term-resolving `map` inside `Goal::new`:
constants go through `constant_names.add_name`, variables through
`variable_names.add_name` followed by the binding's `insert`. -/
def goalNewStep (acc : List Term × Binding × DataSet) (t : TermSyntax) :
    List Term × Binding × DataSet :=
  match t with
  | TermSyntax.const c =>
      let cn := acc.2.2.constant_names.add_name c
      (acc.1 ++ [Term.Constant cn.1], acc.2.1,
        { acc.2.2 with constant_names := cn.2 })
  | TermSyntax.var v =>
      let vn := acc.2.2.variable_names.add_name v
      let vi := Binding.insert acc.2.1 vn.1
      (acc.1 ++ [Term.Variable vi.1], vi.2,
        { acc.2.2 with variable_names := vn.2 })

/-- `Goal::new`: declare the relation, then resolve each term in order.
The mutated binding and data set are returned alongside the goal. -/
def Goal.new (atom : Atom) (vars : Binding) (d : DataSet) :
    Goal × Binding × DataSet :=
  let rd := d.declare_relation atom.relation
  let res := atom.terms.foldl goalNewStep ([], vars, rd.2)
  (⟨rd.1, res.1⟩, res.2.1, res.2.2)

/-- One iteration of the sub-goal-building `map` shared by `Rule::new`
and `Query::new`: build the next goal against the accumulated binding
and data set. -/
def goalsNewStep (acc : List Goal × Binding × DataSet) (sub : Atom) :
    List Goal × Binding × DataSet :=
  let gn := Goal.new sub acc.2.1 acc.2.2
  (acc.1 ++ [gn.1], gn.2.1, gn.2.2)

/-- `Rule::new`: build the head goal against a fresh binding, then the
body goals in order, sharing that binding. -/
def Rule.new (head : Atom) (clauses : List Atom) (d : DataSet) :
    Rule × DataSet :=
  let g := Goal.new head [] d
  let res := clauses.foldl goalsNewStep ([], g.2.1, g.2.2)
  ({ goal := g.1, sub_goals := res.1, vars := res.2.1 }, res.2.2)

/-- `Query::new`: like `Rule::new` with no head. -/
def Query.new (clauses : List Atom) (d : DataSet) : Query × DataSet :=
  let res := clauses.foldl goalsNewStep ([], [], d)
  ({ vars := res.2.1, sub_goals := res.1 }, res.2.2)

/-- `DataSet::fact`: intern the constants (building the tuple), declare
the relation, insert the tuple. -/
def DataSet.fact (d : DataSet) (f : Fact) : DataSet :=
  let tr := f.constants.foldl
    (fun (acc : List Nat × NamePool) c =>
      let cn := acc.2.add_name c
      (acc.1 ++ [cn.1], cn.2))
    ([], d.constant_names)
  let d1 : DataSet := { d with constant_names := tr.2 }
  let rd := d1.declare_relation f.relation
  { rd.2 with relations := rd.2.relations.set rd.1 (insert tr.1 (relAt rd.2 rd.1)) }

/-- `DataSet::rule`: build the `Rule` and append it to the rule list. -/
def DataSet.rule (d : DataSet) (r : RuleSyntax) : DataSet :=
  let rn := Rule.new r.head r.body d
  { rn.2 with rules := rn.2.rules ++ [rn.1] }

/-- `DataSet::program`: ingest each statement in order. -/
def DataSet.program (d : DataSet) (p : Program) : DataSet :=
  p.foldl
    (fun acc s =>
      match s with
      | Statement.fact f => acc.fact f
      | Statement.rule r => acc.rule r)
    d

/-- One iteration of the `for` loop inside `DataSet::step`: run the
rule and extend its head relation with the result. -/
def applyRule (d : DataSet) (r : Rule) : DataSet :=
  { d with relations := d.relations.set r.relation (relAt d r.relation ∪ r.step d) }

/-- `DataSet::step`: apply every rule in declaration order, each one
seeing the relations as already extended by the earlier ones. -/
def DataSet.step (d : DataSet) : DataSet := d.rules.foldl applyRule d

/-- One pass of the `while` loop in `DataSet::run`: record the current
length in `last_len`, then `step`. -/
def DataSet.pass (d : DataSet) : DataSet := DataSet.step { d with last_len := d.len }

/-- `DataSet::run`'s `while is_dirty` loop with an explicit iteration
budget; `none` means the budget ran out before the loop condition
failed. -/
def runFuel : Nat → DataSet → Option DataSet
  | 0, _ => none
  | fuel + 1, d => if d.is_dirty then runFuel fuel d.pass else some d

/-- Every tuple `Rule::step` can ever emit against a data set with this
many constants, bindings unfiltered. -/
def outSet (r : Rule) (max : Nat) : Finset Tuple :=
  ((counterList r.vars.length max).map r.goal.make_tuple).toFinset

/-- Union of `outSet` over the rules whose head points at relation `i`. -/
def bigOut (rules : List Rule) (max i : Nat) : Finset Tuple :=
  (rules.map (fun r => if r.relation = i then outSet r max else ∅)).foldr (· ∪ ·) ∅

/-- Upper bound on `DataSet::len` that a fixpoint pass cannot change:
each relation padded with everything the rules could add to it. -/
def U (d : DataSet) : Nat :=
  ∑ i ∈ Finset.range d.relations.length,
    (relAt d i ∪ bigOut d.rules d.constants_count i).card

/-- Termination measure for the `while is_dirty` loop. -/
def mu (d : DataSet) : Nat :=
  2 * (U d - d.len) + (if d.is_dirty then 1 else 0)

/-- `DataSet::run`: the loop terminates (proved below), so a budget of
`mu d + 1` passes always suffices. -/
def DataSet.run (d : DataSet) : DataSet := (runFuel (mu d + 1) d).getD d

/-- `answer.rs`: `Answer` is a `BTreeSet` of (variable name, constant
name) pairs. -/
abbrev Answer := Finset (String × String)

/-- `Answer::new`: pair each slot's variable name with its chosen
constant's name. -/
def Answer.new (binding : Binding) (vars : Binding) (d : DataSet) : Answer :=
  (binding.enum.map (fun p =>
    (d.variable_names.names.getD (vars.getD p.1 0) "",
     d.constant_names.names.getD p.2 ""))).toFinset

/-- `DataSet::search`: one `Answer` per satisfying binding, in
`BTreeSet` (ascending) order. -/
def DataSet.search (d : DataSet) (q : Query) : List Answer :=
  ((q.bindings d).sort (· ≤ ·)).map (fun b => Answer.new b q.vars d)

/-- `DataSet::query`: build the `Query` (which may intern names), then
search.  The mutated data set is returned alongside the answers. -/
def DataSet.query (d : DataSet) (qs : QuerySyntax) : DataSet × List Answer :=
  let qn := Query.new qs d
  (qn.2, qn.2.search qn.1)

/-- Is a syntactic term a constant? -/
def TermSyntax.isConst : TermSyntax → Bool
  | TermSyntax.const _ => true
  | TermSyntax.var _ => false

/-- The program `p(a). p(b). q(X) :- p(X).` as its syntax tree. -/
def exampleProgram : Program :=
  [Statement.fact ⟨"p", ["a"]⟩,
   Statement.fact ⟨"p", ["b"]⟩,
   Statement.rule ⟨⟨"q", [TermSyntax.var "X"]⟩, [⟨"p", [TermSyntax.var "X"]⟩]⟩]

/-- An empty data set after ingesting `exampleProgram`. -/
def exampleDS : DataSet := DataSet.default.program exampleProgram

/-- The value whose base-`max` digits (least significant first) are the
entries of the list: the cursor from which `Counter::next` rebuilds
exactly this vector. -/
def digitsVal (max : Nat) : List Nat → Nat
  | [] => 0
  | a :: rest => a + max * digitsVal max rest

/-- A rule with a ground head and an empty body, as `Rule::new` builds it
from `q(a) :- .`: no distinct variables. -/
def groundRule : Rule := { goal := ⟨1, [Term.Constant 0]⟩, sub_goals := [], vars := [] }

/-- The rule `q(X) :- p(X).` as `Rule::new` builds it against
`exampleDS`'s pools: head relation `q` is id 1, body relation `p` is
id 0, and `X` is variable slot 0. -/
def exampleRule : Rule :=
  { goal := ⟨1, [Term.Variable 0]⟩, sub_goals := [⟨0, [Term.Variable 0]⟩], vars := [0] }

/-- A ground query with zero variables, `Query::new`'s output for
`p(a)` against `exampleDS` (relation `p` is id 0, constant `a` is 0). -/
def groundQuery : Query := { vars := [], sub_goals := [⟨0, [Term.Constant 0]⟩] }

/-- The query syntax `p(X)`. -/
def exampleQS : QuerySyntax := [⟨"p", [TermSyntax.var "X"]⟩]

/-- The ground query syntax `p(a)`. -/
def exampleGroundQS : QuerySyntax := [⟨"p", [TermSyntax.const "a"]⟩]

/-! ### The counter's yield sequence -/

/-- `counterList` in closed form. -/
theorem counterList_eq (n m : Nat) :
    counterList n m =
      if n = 0 then [] else (List.range (m ^ (n + 1))).map (counterVec n m) := by
  unfold counterList Counter.items Counter.new
  simp

/-- A fresh counter with `length = 0` yields nothing: `is_empty` is true
outright. -/
theorem Counter.next_none_of_length_zero {c : Counter} (h : c.length = 0) :
    c.next = none := by
  simp [Counter.next, Counter.is_empty, h]

/-- An exhausted `next` means no items remain. -/
theorem Counter.items_eq_nil {c : Counter} (h : c.next = none) : c.items = [] := by
  unfold Counter.next at h
  by_cases hl : c.length = 0
  · simp [Counter.items, hl]
  · have he : c.is_empty = true := by
      by_cases he : c.is_empty
      · exact he
      · rw [if_neg he] at h; cases h
    have : c.cursor = c.stop := by
      simpa [Counter.is_empty, hl] using he
    simp [Counter.items, hl, this]

/-- A successful `next` yields the head of the remaining items, and the
advanced counter carries the tail (for reachable states, where the
cursor has not run past the end marker). -/
theorem Counter.items_eq_cons {c : Counter} {v : List Nat} {c' : Counter}
    (hle : c.cursor ≤ c.stop) (h : c.next = some (v, c')) :
    c.items = v :: c'.items := by
  unfold Counter.next at h
  by_cases he : c.is_empty
  · rw [if_pos he] at h; cases h
  · rw [if_neg he] at h
    have hl : c.length ≠ 0 := by
      intro hl0
      exact he (by simp [Counter.is_empty, hl0])
    have hcs : c.cursor ≠ c.stop := by
      intro hcs
      exact he (by simp [Counter.is_empty, hcs])
    have hlt : c.cursor < c.stop := lt_of_le_of_ne hle hcs
    rw [Option.some.injEq, Prod.mk.injEq] at h
    obtain ⟨hv, hc'⟩ := h
    subst hv hc'
    simp only [Counter.items, if_neg hl]
    have hsub : c.stop - c.cursor = (c.stop - (c.cursor + 1)) + 1 := by omega
    rw [hsub, List.range_succ_eq_map, List.map_cons, List.map_map, Nat.add_zero]
    refine congrArg (List.cons _) ?_
    exact List.map_congr_left
      (fun a _ => congrArg (counterVec c.length c.max) (by omega))

/-- Each entry of a yielded vector is a base-`max` digit. -/
theorem counterVec_length (n m c : Nat) : (counterVec n m c).length = n := by
  simp [counterVec]

/-- Entries of a yielded vector are below `max` (when `max` is positive). -/
theorem counterVec_mem_lt {n m c : Nat} (hm : 0 < m) :
    ∀ x ∈ counterVec n m c, x < m := by
  intro x hx
  simp only [counterVec, List.mem_map, List.mem_range] at hx
  obtain ⟨i, _, rfl⟩ := hx
  exact Nat.mod_lt _ hm

/-- Peeling the least significant digit off a yielded vector. -/
theorem counterVec_succ (n m c : Nat) :
    counterVec (n + 1) m c = (c % m) :: counterVec n m (c / m) := by
  simp only [counterVec, List.range_succ_eq_map, List.map_cons, List.map_map]
  congr 1
  · simp
  · refine List.map_congr_left (fun i _ => ?_)
    simp only [Function.comp]
    rw [Nat.succ_eq_add_one, Nat.pow_succ', ← Nat.div_div_eq_div_mul]

/-- The digit value of a digit list is below `max ^ length`. -/
theorem digitsVal_lt {m : Nat} :
    ∀ {v : List Nat}, (∀ x ∈ v, x < m) → digitsVal m v < m ^ v.length := by
  intro v
  induction v with
  | nil => intro _; simp [digitsVal]
  | cons a t ih =>
    intro h
    have ha : a < m := h a (by simp)
    have ht := ih (fun x hx => h x (by simp [hx]))
    simp only [digitsVal, List.length_cons]
    calc a + m * digitsVal m t < m + m * digitsVal m t := by omega
      _ = m * (digitsVal m t + 1) := by ring
      _ ≤ m * m ^ t.length := Nat.mul_le_mul_left m ht
      _ = m ^ (t.length + 1) := (Nat.pow_succ' ..).symm

/-- `next`'s digit extraction undoes `digitsVal`. -/
theorem counterVec_digitsVal {m : Nat} :
    ∀ {v : List Nat}, (∀ x ∈ v, x < m) →
      counterVec v.length m (digitsVal m v) = v := by
  intro v
  induction v with
  | nil => intro _; simp [counterVec]
  | cons a t ih =>
    intro h
    have ha : a < m := h a (by simp)
    have hm : 0 < m := Nat.pos_of_ne_zero (by omega)
    simp only [digitsVal, List.length_cons, counterVec_succ]
    congr 1
    · rw [Nat.add_mul_mod_self_left, Nat.mod_eq_of_lt ha]
    · have hdiv : (a + m * digitsVal m t) / m = digitsVal m t := by
        rw [Nat.mul_comm, Nat.add_mul_div_right a _ hm, Nat.div_eq_of_lt ha,
          Nat.zero_add]
      rw [hdiv]
      exact ih (fun x hx => h x (by simp [hx]))

/-- `digitsVal` undoes digit extraction for cursors in range. -/
theorem digitsVal_counterVec {m : Nat} :
    ∀ (n c : Nat), c < m ^ n → digitsVal m (counterVec n m c) = c := by
  intro n
  induction n with
  | zero =>
    intro c hc
    rw [pow_zero] at hc
    rw [Nat.lt_one_iff.mp hc]
    simp [counterVec, digitsVal]
  | succ n ih =>
    intro c hc
    rw [counterVec_succ]
    have hdl : c / m < m ^ n := by
      apply Nat.div_lt_of_lt_mul
      rwa [← Nat.pow_succ']
    simp only [digitsVal, ih _ hdl]
    exact Nat.mod_add_div c m

/-- A yielded vector only depends on the cursor modulo `max ^ length`. -/
theorem counterVec_mod (m : Nat) :
    ∀ (n c : Nat), counterVec n m c = counterVec n m (c % m ^ n) := by
  intro n
  induction n with
  | zero => intro c; simp [counterVec]
  | succ n ih =>
    intro c
    rw [counterVec_succ, counterVec_succ]
    congr 1
    · rw [Nat.mod_mod_of_dvd c (dvd_pow_self m (Nat.succ_ne_zero n))]
    · rw [ih (c / m), Nat.pow_succ', Nat.mod_mul_right_div_self]

/-- The distinct vectors the counter yields are exactly the vectors of
the requested length with all entries in `[0, max)` — provided the
length is at least 1, else nothing is yielded. -/
theorem mem_counterList {n m : Nat} {v : List Nat} :
    v ∈ counterList n m ↔ 1 ≤ n ∧ v.length = n ∧ ∀ x ∈ v, x < m := by
  rw [counterList_eq]
  by_cases hn : n = 0
  · subst hn; simp
  · rw [if_neg hn]
    simp only [List.mem_map, List.mem_range]
    constructor
    · rintro ⟨c, hc, rfl⟩
      have hm : 0 < m := by
        rcases Nat.eq_zero_or_pos m with hm0 | hm
        · rw [hm0, Nat.zero_pow (Nat.succ_pos n)] at hc; omega
        · exact hm
      exact ⟨Nat.one_le_iff_ne_zero.mpr hn, counterVec_length n m c,
        counterVec_mem_lt hm⟩
    · rintro ⟨-, hl, hb⟩
      have hm : 0 < m := by
        rcases v with _ | ⟨x, t⟩
        · simp at hl; omega
        · have := hb x (by simp); omega
      refine ⟨digitsVal m v, ?_, ?_⟩
      · calc digitsVal m v < m ^ v.length := digitsVal_lt hb
          _ = m ^ n := by rw [hl]
          _ ≤ m ^ (n + 1) := Nat.pow_le_pow_right hm (Nat.le_succ n)
      · rw [← hl]
        exact counterVec_digitsVal hb

/-- Counting cursors with a fixed residue in an aligned range. -/
theorem countP_mod_range {M t : Nat} (ht : t < M) :
    ∀ k : Nat, (List.range (k * M)).countP (fun c => c % M == t) = k := by
  intro k
  induction k with
  | zero => simp
  | succ k ih =>
    rw [Nat.succ_mul, List.range_add, List.countP_append, ih, List.countP_map]
    have h1 : (List.range M).countP ((fun c => c % M == t) ∘ (fun x => k * M + x)) =
        (List.range M).countP (fun x => x == t) := by
      refine List.countP_congr (fun x hx => ?_)
      have hxM : x < M := List.mem_range.mp hx
      simp only [Function.comp, beq_iff_eq]
      rw [Nat.add_comm, Nat.mul_comm, Nat.add_mul_mod_self_left,
        Nat.mod_eq_of_lt hxM]
    rw [h1, ← List.count_eq_countP,
      List.count_eq_one_of_mem (List.nodup_range M) (List.mem_range.mpr ht)]

/-- C3 counterexample: `Counter::new(1, 2)` yields 4 vectors, with `[0]`
appearing twice — not `2^1` vectors each appearing once. -/
theorem counter_count_c3_counterexample :
    ¬ ((counterList 1 2).length = 2 ^ 1 ∧ (counterList 1 2).count [0] = 1) := by
  decide

/-- C3 (amended): for `length ≥ 1`, `Counter::new(length, max)` yields
`max ^ (length + 1)` vectors in total (the source's end marker is
`max.pow(length + 1)`), and each vector of length `length` with entries
in `[0, max)` is yielded exactly `max` times. -/
theorem counter_count_c3_amended (length max : Nat) (h : 1 ≤ length) :
    (counterList length max).length = max ^ (length + 1) ∧
      ∀ v : List Nat, v.length = length → (∀ x ∈ v, x < max) →
        (counterList length max).count v = max := by
  have hne : length ≠ 0 := by omega
  constructor
  · rw [counterList_eq, if_neg hne, List.length_map, List.length_range]
  · intro v hl hb
    rcases Nat.eq_zero_or_pos max with hm0 | hm
    · subst hm0
      rw [counterList_eq, if_neg hne, Nat.zero_pow (Nat.succ_pos length)]
      simp
    · rw [counterList_eq, if_neg hne, List.count_eq_countP, List.countP_map]
      have hiff : ∀ c ∈ List.range (max ^ (length + 1)),
          ((fun x => x == v) ∘ counterVec length max) c = true ↔
            (fun c => c % max ^ length == digitsVal max v) c = true := by
        intro c _
        simp only [Function.comp, beq_iff_eq]
        constructor
        · intro hc
          have h1 : counterVec length max (c % max ^ length) = v := by
            rw [← counterVec_mod]; exact hc
          have h2 : c % max ^ length < max ^ length :=
            Nat.mod_lt _ (Nat.pos_pow_of_pos length hm)
          rw [← h1, digitsVal_counterVec length _ h2]
        · intro hc
          rw [counterVec_mod, hc, ← hl, counterVec_digitsVal hb]
      rw [List.countP_congr hiff]
      have hd : digitsVal max v < max ^ length := by
        have := digitsVal_lt (m := max) hb
        rwa [hl] at this
      have := countP_mod_range hd max
      rwa [Nat.pow_succ']

/-- C3 amended, instantiated at `length = 1, max = 2`: four vectors in
total, `[0]` yielded exactly twice. -/
theorem counter_count_c3_amended_witness :
    (counterList 1 2).length = 2 ^ 2 ∧ (counterList 1 2).count [0] = 2 :=
  ⟨(counter_count_c3_amended 1 2 (by decide)).1,
   (counter_count_c3_amended 1 2 (by decide)).2 [0] (by decide) (by decide)⟩

/-- C4: with `length = 0` or `max = 0` the counter yields nothing; in
general the distinct vectors yielded are exactly the vectors of the
requested length whose entries all lie in `[0, max)`. -/
theorem counter_coverage_c4 (length max : Nat) :
    (length = 0 ∨ max = 0 → counterList length max = []) ∧
      ∀ v : List Nat, v ∈ counterList length max ↔
        1 ≤ length ∧ v.length = length ∧ ∀ x ∈ v, x < max := by
  constructor
  · rintro (h0 | h0)
    · rw [counterList_eq, if_pos h0]
    · subst h0
      rw [counterList_eq]
      by_cases hl : length = 0
      · rw [if_pos hl]
      · rw [if_neg hl, Nat.zero_pow (Nat.succ_pos length)]
        simp
  · intro v
    exact mem_counterList

/-- C4 at the spec's concrete inputs: the degenerate counters are empty,
`[3,3,3]` is yielded by `Counter::new(3, 4)` and `[0,0,4]` is not. -/
theorem counter_coverage_c4_witness :
    counterList 0 7 = [] ∧ counterList 2 0 = [] ∧
      [3, 3, 3] ∈ counterList 3 4 ∧ [0, 0, 4] ∉ counterList 3 4 := by
  refine ⟨(counter_coverage_c4 0 7).1 (Or.inl rfl),
    (counter_coverage_c4 2 0).1 (Or.inr rfl),
    ((counter_coverage_c4 3 4).2 [3, 3, 3]).mpr ⟨by decide, by decide, by decide⟩,
    fun h => ?_⟩
  have := (((counter_coverage_c4 3 4).2 [0, 0, 4]).mp h).2.2 4 (by decide)
  omega

/-! ### The fixpoint step and run loop -/

/-- Writing a relation back at its own index. -/
theorem relAt_set_self {d : DataSet} {j : Nat} (s : Finset Tuple)
    (hj : j < d.relations.length) :
    relAt { d with relations := d.relations.set j s } j = s := by
  simp [relAt, List.getD_eq_getElem?_getD, List.getElem?_set_self hj]

/-- Writing one relation leaves every other index unchanged. -/
theorem relAt_set_ne {d : DataSet} {i j : Nat} (s : Finset Tuple) (hij : i ≠ j) :
    relAt { d with relations := d.relations.set j s } i = relAt d i := by
  simp [relAt, List.getD_eq_getElem?_getD, List.getElem?_set_ne (Ne.symm hij)]

/-- Whatever a rule's `step` emits lies inside its unfiltered output. -/
theorem step_subset_outSet (r : Rule) (d : DataSet) :
    r.step d ⊆ outSet r d.constants_count := by
  intro t ht
  simp only [Rule.step, List.mem_toFinset, List.mem_map] at ht
  obtain ⟨b, hb, rfl⟩ := ht
  simp only [outSet, List.mem_toFinset, List.mem_map]
  exact ⟨b, (List.mem_filter.mp hb).1, rfl⟩

/-- One rule application only grows its head relation, and only by
tuples from the rule's possible output. -/
theorem relAt_applyRule (d : DataSet) (r : Rule) (i : Nat) :
    relAt d i ⊆ relAt (applyRule d r) i ∧
      relAt (applyRule d r) i ⊆
        relAt d i ∪ (if r.relation = i then outSet r d.constants_count else ∅) := by
  by_cases hij : r.relation = i
  · subst hij
    rw [if_pos rfl]
    by_cases hlt : r.relation < d.relations.length
    · have hset : relAt (applyRule d r) r.relation =
          relAt d r.relation ∪ r.step d :=
        relAt_set_self _ hlt
      rw [hset]
      exact ⟨Finset.subset_union_left,
        Finset.union_subset_union_right (step_subset_outSet r d)⟩
    · have hset : (applyRule d r).relations = d.relations := by
        simp only [applyRule]
        exact List.set_eq_of_length_le (Nat.le_of_not_lt hlt)
      have heq : relAt (applyRule d r) r.relation = relAt d r.relation := by
        simp [relAt, hset]
      rw [heq]
      exact ⟨subset_rfl, Finset.subset_union_left⟩
  · rw [if_neg hij]
    have heq : relAt (applyRule d r) i = relAt d i := relAt_set_ne _ (Ne.symm hij)
    rw [heq]
    exact ⟨subset_rfl, Finset.subset_union_left⟩

/-- `bigOut` unfolded over the head of the rule list. -/
theorem bigOut_cons (r : Rule) (rs : List Rule) (m i : Nat) :
    bigOut (r :: rs) m i =
      (if r.relation = i then outSet r m else ∅) ∪ bigOut rs m i := rfl

/-- The loop inside `DataSet::step` keeps every field except the
relations' contents; relations only grow, and only by possible rule
outputs. -/
theorem foldl_applyRule_inv :
    ∀ (rs : List Rule) (d : DataSet),
      (rs.foldl applyRule d).rules = d.rules ∧
      (rs.foldl applyRule d).constant_names = d.constant_names ∧
      (rs.foldl applyRule d).relation_names = d.relation_names ∧
      (rs.foldl applyRule d).variable_names = d.variable_names ∧
      (rs.foldl applyRule d).last_len = d.last_len ∧
      (rs.foldl applyRule d).relations.length = d.relations.length ∧
      ∀ i, relAt d i ⊆ relAt (rs.foldl applyRule d) i ∧
        relAt (rs.foldl applyRule d) i ⊆
          relAt d i ∪ bigOut rs d.constants_count i := by
  intro rs
  induction rs with
  | nil =>
    intro d
    exact ⟨rfl, rfl, rfl, rfl, rfl, rfl,
      fun i => ⟨subset_rfl, by simp [bigOut]⟩⟩
  | cons r t ih =>
    intro d
    rw [List.foldl_cons]
    obtain ⟨h1, h2, h3, h4, h5, h6, h7⟩ := ih (applyRule d r)
    have hlen : (applyRule d r).relations.length = d.relations.length := by
      simp [applyRule, List.length_set]
    have hcc : (applyRule d r).constants_count = d.constants_count := rfl
    refine ⟨h1, h2, h3, h4, h5, h6.trans hlen, fun i => ?_⟩
    obtain ⟨ha1, ha2⟩ := relAt_applyRule d r i
    obtain ⟨hb1, hb2⟩ := h7 i
    refine ⟨ha1.trans hb1, ?_⟩
    intro x hx
    rw [bigOut_cons]
    rcases Finset.mem_union.mp (hb2 hx) with hx1 | hx1
    · rcases Finset.mem_union.mp (ha2 hx1) with hx2 | hx2
      · exact Finset.mem_union_left _ hx2
      · exact Finset.mem_union_right _ (Finset.mem_union_left _ hx2)
    · rw [hcc] at hx1
      exact Finset.mem_union_right _ (Finset.mem_union_right _ hx1)

/-- `DataSet::step`'s frame: every field but the relations' contents is
untouched; relations only grow, within the possible rule outputs. -/
theorem DataSet.step_inv (d : DataSet) :
    d.step.rules = d.rules ∧ d.step.constant_names = d.constant_names ∧
    d.step.relation_names = d.relation_names ∧
    d.step.variable_names = d.variable_names ∧
    d.step.last_len = d.last_len ∧
    d.step.relations.length = d.relations.length ∧
    ∀ i, relAt d i ⊆ relAt d.step i ∧
      relAt d.step i ⊆ relAt d i ∪ bigOut d.rules d.constants_count i :=
  foldl_applyRule_inv d.rules d

/-- A fact count of a relation list, indexed. -/
theorem len_list_eq_sum (l : List (Finset Tuple)) :
    (l.map Finset.card).sum = ∑ i ∈ Finset.range l.length, (l.getD i ∅).card := by
  induction l with
  | nil => simp
  | cons a t ih =>
    rw [List.map_cons, List.sum_cons, List.length_cons, Finset.sum_range_succ']
    simp only [List.getD_cons_succ, List.getD_cons_zero]
    rw [ih]
    omega

/-- `DataSet::len` as a sum over relation indices. -/
theorem len_eq_sum (d : DataSet) :
    d.len = ∑ i ∈ Finset.range d.relations.length, (relAt d i).card :=
  len_list_eq_sum d.relations

/-- `step` never loses facts. -/
theorem len_le_len_step (d : DataSet) : d.len ≤ d.step.len := by
  obtain ⟨-, -, -, -, -, hlen, hsub⟩ := d.step_inv
  rw [len_eq_sum, len_eq_sum d.step, hlen]
  exact Finset.sum_le_sum (fun i _ => Finset.card_le_card (hsub i).1)

/-- The padded bound is invariant under `step`. -/
theorem U_step (d : DataSet) : U d.step = U d := by
  obtain ⟨hr, hc, -, -, -, hlen, hsub⟩ := d.step_inv
  unfold U
  have hcc : d.step.constants_count = d.constants_count := by
    unfold DataSet.constants_count
    rw [hc]
  rw [hlen, hr, hcc]
  refine Finset.sum_congr rfl (fun i _ => ?_)
  refine congrArg Finset.card (Finset.Subset.antisymm ?_ ?_)
  · exact Finset.union_subset ((hsub i).2) Finset.subset_union_right
  · exact Finset.union_subset ((hsub i).1.trans Finset.subset_union_left)
      Finset.subset_union_right

/-- `len` never exceeds the padded bound. -/
theorem len_le_U (d : DataSet) : d.len ≤ U d := by
  rw [len_eq_sum]
  unfold U
  exact Finset.sum_le_sum
    (fun i _ => Finset.card_le_card Finset.subset_union_left)

/-- After one pass, `last_len` records the length from before it. -/
theorem pass_last_len (d : DataSet) : d.pass.last_len = d.len :=
  (DataSet.step_inv { d with last_len := d.len }).2.2.2.2.1

/-- A pass never loses facts. -/
theorem len_le_len_pass (d : DataSet) : d.len ≤ d.pass.len :=
  len_le_len_step { d with last_len := d.len }

/-- The padded bound is invariant under a pass. -/
theorem U_pass (d : DataSet) : U d.pass = U d :=
  U_step { d with last_len := d.len }

/-- `is_dirty` spelled as a proposition. -/
theorem is_dirty_iff (d : DataSet) : d.is_dirty = true ↔ d.last_len ≠ d.len := by
  simp [DataSet.is_dirty]

/-- `is_dirty = false` spelled as a proposition. -/
theorem is_dirty_false_iff (d : DataSet) :
    d.is_dirty = false ↔ d.last_len = d.len := by
  simp [DataSet.is_dirty]

/-- The loop measure drops across every pass taken from a dirty state. -/
theorem mu_pass_lt (d : DataSet) (hd : d.is_dirty = true) : mu d.pass < mu d := by
  have h1 : d.len ≤ d.pass.len := len_le_len_pass d
  have h2 : d.pass.len ≤ U d.pass := len_le_U _
  have h3 : U d.pass = U d := U_pass d
  have h4 : d.pass.last_len = d.len := pass_last_len d
  have h5 : d.len ≤ U d := len_le_U d
  rw [h3] at h2
  unfold mu
  rw [hd, h3]
  rcases Bool.eq_false_or_eq_true d.pass.is_dirty with h6 | h6
  · have h7 : d.len ≠ d.pass.len := by
      rw [← h4]; exact (is_dirty_iff _).mp h6
    rw [h6]
    simp only [if_true]
    omega
  · have h7 : d.len = d.pass.len := by
      rw [← h4]; exact (is_dirty_false_iff _).mp h6
    rw [h6]
    simp only [Bool.false_eq_true, if_false, if_true]
    omega

/-- `runFuel` is stable under extra fuel. -/
theorem runFuel_succ_of_some :
    ∀ (k : Nat) (d r : DataSet), runFuel k d = some r → runFuel (k + 1) d = some r := by
  intro k
  induction k with
  | zero => intro d r h; cases h
  | succ k ih =>
    intro d r h
    simp only [runFuel] at h ⊢
    by_cases hd : d.is_dirty = true
    · rw [if_pos hd] at h ⊢
      exact ih _ _ h
    · rw [if_neg hd] at h ⊢
      exact h

/-- `runFuel` is stable under any amount of extra fuel. -/
theorem runFuel_add (j : Nat) :
    ∀ (k : Nat) (d r : DataSet), runFuel k d = some r → runFuel (k + j) d = some r := by
  induction j with
  | zero => intro k d r h; exact h
  | succ j ih =>
    intro k d r h
    rw [← Nat.add_assoc]
    exact runFuel_succ_of_some _ _ _ (ih _ _ _ h)

/-- Termination of the `while is_dirty` loop: a budget one larger than
the measure always suffices. -/
theorem runFuel_isSome :
    ∀ (n : Nat) (d : DataSet), mu d ≤ n → ∃ r, runFuel (n + 1) d = some r := by
  intro n
  induction n with
  | zero =>
    intro d h
    have hd : ¬ d.is_dirty = true := by
      intro h1
      unfold mu at h
      rw [h1] at h
      simp at h
    exact ⟨d, by simp only [runFuel]; rw [if_neg hd]⟩
  | succ n ih =>
    intro d h
    by_cases hd : d.is_dirty = true
    · have hlt := mu_pass_lt d hd
      obtain ⟨r, hr⟩ := ih d.pass (by omega)
      exact ⟨r, by simp only [runFuel]; rw [if_pos hd]; exact hr⟩
    · exact ⟨d, by simp only [runFuel]; rw [if_neg hd]⟩

/-- Two successful runs agree, whatever their budgets. -/
theorem runFuel_agree {k k' : Nat} {d r r' : DataSet}
    (h : runFuel k d = some r) (h' : runFuel k' d = some r') : r = r' := by
  rcases Nat.le_total k k' with hle | hle
  · obtain ⟨j, rfl⟩ := Nat.le.dest hle
    rw [runFuel_add j k d r h] at h'
    exact (Option.some.injEq _ _).mp h'
  · obtain ⟨j, rfl⟩ := Nat.le.dest hle
    rw [runFuel_add j k' d r' h'] at h
    exact ((Option.some.injEq _ _).mp h).symm

/-- `DataSet::run` is whatever any successful bounded run produces. -/
theorem run_eq_of_runFuel {k : Nat} {d r : DataSet}
    (h : runFuel k d = some r) : d.run = r := by
  obtain ⟨r', hr'⟩ := runFuel_isSome (mu d) d le_rfl
  unfold DataSet.run
  rw [hr']
  exact runFuel_agree hr' h

/-- `DataSet::run` satisfies the source's loop equation: when dirty,
record the length and step, then loop; otherwise stop. -/
theorem run_eq (d : DataSet) :
    d.run = if d.is_dirty then d.pass.run else d := by
  by_cases hd : d.is_dirty = true
  · rw [if_pos hd]
    obtain ⟨r, hr⟩ := runFuel_isSome (mu d.pass) d.pass le_rfl
    have hrun : d.pass.run = r := run_eq_of_runFuel hr
    have hstep : runFuel (mu d.pass + 1 + 1) d = some r := by
      simp only [runFuel]
      rw [if_pos hd]
      exact hr
    rw [run_eq_of_runFuel hstep, hrun]
  · rw [if_neg hd]
    exact run_eq_of_runFuel (k := 1) (by simp only [runFuel]; rw [if_neg hd])

/-- Bounded induction along the loop: `run` lands on a clean state and
never shrinks any relation. -/
theorem run_aux :
    ∀ (n : Nat) (d : DataSet), mu d ≤ n →
      (d.run).is_dirty = false ∧ ∀ i, relAt d i ⊆ relAt d.run i := by
  intro n
  induction n with
  | zero =>
    intro d h
    have hd : ¬ d.is_dirty = true := by
      intro h1
      unfold mu at h
      rw [h1] at h
      simp at h
    have hrun : d.run = d := by rw [run_eq, if_neg hd]
    rw [hrun]
    exact ⟨Bool.eq_false_iff.mpr hd, fun i => subset_rfl⟩
  | succ n ih =>
    intro d h
    by_cases hd : d.is_dirty = true
    · have hlt := mu_pass_lt d hd
      have hrw : d.run = d.pass.run := by rw [run_eq, if_pos hd]
      obtain ⟨h1, h2⟩ := ih d.pass (by omega)
      refine ⟨by rw [hrw]; exact h1, fun i => ?_⟩
      rw [hrw]
      refine Finset.Subset.trans ?_ (h2 i)
      exact ((DataSet.step_inv { d with last_len := d.len }).2.2.2.2.2.2 i).1
    · have hrun : d.run = d := by rw [run_eq, if_neg hd]
      rw [hrun]
      exact ⟨Bool.eq_false_iff.mpr hd, fun i => subset_rfl⟩

/-- C5: the fixpoint loop terminates — some finite budget reproduces
`run()` — a step interns no constants, creates no relations and adds no
rules, and from a dirty state a pass either strictly increases the
total fact count or leaves a clean state that stops the loop. -/
theorem run_terminates_c5 (d : DataSet) :
    (∃ k, runFuel k d = some d.run) ∧
      d.step.constant_names = d.constant_names ∧
      d.step.relations.length = d.relations.length ∧
      d.step.rules = d.rules ∧
      (d.is_dirty = true → d.len < d.pass.len ∨ d.pass.is_dirty = false) := by
  obtain ⟨r, hr⟩ := runFuel_isSome (mu d) d le_rfl
  refine ⟨⟨mu d + 1, by rw [hr, run_eq_of_runFuel hr]⟩,
    (d.step_inv).2.1, (d.step_inv).2.2.2.2.2.1, (d.step_inv).1, fun _ => ?_⟩
  by_cases hlen : d.len < d.pass.len
  · exact Or.inl hlen
  · have h1 : d.len ≤ d.pass.len := len_le_len_pass d
    have h2 : d.pass.last_len = d.len := pass_last_len d
    right
    rw [is_dirty_false_iff]
    omega

/-- C5 at `exampleDS`: the ingested program leaves a dirty state, and
its first pass strictly adds facts or stops the loop. -/
theorem run_terminates_c5_witness :
    (∃ k, runFuel k exampleDS = some exampleDS.run) ∧
      (exampleDS.len < exampleDS.pass.len ∨ exampleDS.pass.is_dirty = false) :=
  ⟨(run_terminates_c5 exampleDS).1,
   (run_terminates_c5 exampleDS).2.2.2.2 (by decide)⟩

/-- C6: `run()` only ever grows each relation's tuple set, so no
relation's fact count decreases. -/
theorem run_monotone_c6 (d : DataSet) (i : Nat) :
    relAt d i ⊆ relAt d.run i ∧ (relAt d i).card ≤ (relAt d.run i).card := by
  have h := (run_aux (mu d) d le_rfl).2 i
  exact ⟨h, Finset.card_le_card h⟩

/-- C7: a second `run()` with nothing ingested in between leaves the
total fact count unchanged (indeed the whole data set is unchanged). -/
theorem run_idempotent_c7 (d : DataSet) : d.run.run.len = d.run.len := by
  have h1 : (d.run).is_dirty = false := (run_aux (mu d) d le_rfl).1
  have h2 : d.run.run = d.run := by
    rw [run_eq, if_neg (by rw [h1]; exact Bool.false_ne_true)]
  rw [h2]

/-! ### End-to-end evaluation of the example program -/

/-- C1: ingesting `p(a). p(b). q(X) :- p(X).` into an empty data set and
then running the fixpoint leaves exactly 4 facts: relations `p` (id 0)
and `q` (id 1) each hold the tuples for constants `a` (id 0) and `b`
(id 1). -/
theorem end_to_end_c1 :
    exampleDS.run.len = 4 ∧
      relAt exampleDS.run 0 = {[0], [1]} ∧
      relAt exampleDS.run 1 = {[0], [1]} ∧
      exampleDS.run.relation_names.names = ["p", "q"] ∧
      exampleDS.run.constant_names.names = ["a", "b"] := by
  cases hfr : runFuel 5 exampleDS with
  | none =>
    have h0 : (runFuel 5 exampleDS).map DataSet.len = some 4 := by decide
    rw [hfr] at h0
    cases h0
  | some r =>
    have hrun : exampleDS.run = r := run_eq_of_runFuel hfr
    have h1 : (runFuel 5 exampleDS).map DataSet.len = some 4 := by decide
    have h2 : (runFuel 5 exampleDS).map
        (fun x => decide (relAt x 0 ⊆ {[0], [1]}) &&
          decide (({[0], [1]} : Finset Tuple) ⊆ relAt x 0) &&
          decide (relAt x 1 ⊆ {[0], [1]}) &&
          decide (({[0], [1]} : Finset Tuple) ⊆ relAt x 1)) = some true := by
      decide
    have h3 : (runFuel 5 exampleDS).map (fun x => x.relation_names.names) =
        some ["p", "q"] := by decide
    have h4 : (runFuel 5 exampleDS).map (fun x => x.constant_names.names) =
        some ["a", "b"] := by decide
    rw [hfr] at h1 h2 h3 h4
    simp only [Option.map_some', Option.some.injEq] at h1 h2 h3 h4
    simp only [Bool.and_eq_true, decide_eq_true_eq] at h2
    obtain ⟨⟨⟨ha, hb⟩, hc⟩, hd⟩ := h2
    rw [hrun]
    exact ⟨h1, Finset.Subset.antisymm ha hb, Finset.Subset.antisymm hc hd, h3, h4⟩

/-- C2: for a rule with at least one distinct variable, `step` returns
exactly the head instantiations of those bindings of the rule's
variable count whose entries lie below the constant count and which
satisfy every body goal, as a deduplicated set. -/
theorem rule_step_c2 (r : Rule) (d : DataSet) (h : 1 ≤ r.vars.length)
    (t : Tuple) :
    t ∈ r.step d ↔
      ∃ b : Binding, b.length = r.vars.length ∧
        (∀ x ∈ b, x < d.constants_count) ∧
        satisfies_all b r.sub_goals d = true ∧
        t = r.goal.make_tuple b := by
  simp only [Rule.step, List.mem_toFinset, List.mem_map, List.mem_filter]
  constructor
  · rintro ⟨b, ⟨hbmem, hsat⟩, rfl⟩
    have hh := mem_counterList.mp hbmem
    exact ⟨b, hh.2.1, hh.2.2, hsat, rfl⟩
  · rintro ⟨b, hlen, hlt, hsat, rfl⟩
    exact ⟨b, ⟨mem_counterList.mpr ⟨h, hlen, hlt⟩, hsat⟩, rfl⟩

/-- C2 at the example: the binding `[0]` satisfies `p(X)` against
`exampleDS`, so `q`'s head tuple `[0]` is in the step output. -/
theorem rule_step_c2_witness : [0] ∈ exampleRule.step exampleDS :=
  (rule_step_c2 exampleRule exampleDS (by decide) [0]).mpr
    ⟨[0], by decide, by decide, by decide, by decide⟩

/-! ### Zero-variable rules and queries -/

/-- A rule with no distinct variables steps to the empty set: the
counter is born empty when `length = 0`. -/
theorem step_empty_of_no_vars (r : Rule) (d : DataSet)
    (h : r.vars.length = 0) : r.step d = ∅ := by
  unfold Rule.step
  rw [h, counterList_eq]
  simp

/-- A query with no distinct variables has no satisfying bindings, for
the same reason. -/
theorem bindings_empty_of_no_vars (q : Query) (d : DataSet)
    (h : q.vars.length = 0) : q.bindings d = ∅ := by
  unfold Query.bindings
  rw [h, counterList_eq]
  simp

/-- C8 counterexample: the empty-body ground rule (head `q(a)`, no body
goals, no variables) yields nothing at all against `exampleDS` — not
the single head tuple the claim requires. -/
theorem empty_body_c8_counterexample :
    ¬ (groundRule.step exampleDS = {groundRule.goal.make_tuple []}) := by
  intro h
  rw [step_empty_of_no_vars groundRule exampleDS rfl] at h
  have hc := congrArg Finset.card h
  simp at hc

/-- C8 (amended): a rule with an empty body and a ground head has zero
distinct variables, so the zero-length counter yields no candidate
binding and `step` returns the empty set for every data set — the
vacuous truth of the empty body is never exercised. -/
theorem empty_body_c8_amended (r : Rule) (d : DataSet)
    (_hbody : r.sub_goals = []) (hvars : r.vars = []) : r.step d = ∅ :=
  step_empty_of_no_vars r d (by rw [hvars]; rfl)

/-- C8 amended at the concrete ground rule. -/
theorem empty_body_c8_amended_witness : groundRule.step exampleDS = ∅ :=
  empty_body_c8_amended groundRule exampleDS rfl rfl

/-- The term-resolving fold never touches the binding when every term is
a constant. -/
theorem goalNewFold_vars_ground :
    ∀ (ts : List TermSyntax) (acc : List Term × Binding × DataSet),
      (∀ t ∈ ts, t.isConst = true) →
      (ts.foldl goalNewStep acc).2.1 = acc.2.1 := by
  intro ts
  induction ts with
  | nil => intro acc _; rfl
  | cons t ts ih =>
    intro acc h
    rw [List.foldl_cons]
    rw [ih _ (fun u hu => h u (by simp [hu]))]
    cases t with
    | const c => rfl
    | var v =>
      exact absurd (h (TermSyntax.var v) (by simp)) (by simp [TermSyntax.isConst])

/-- `Goal::new` leaves the binding alone on an all-constant atom. -/
theorem goalNew_vars_ground (atom : Atom) (vars : Binding) (d : DataSet)
    (h : ∀ t ∈ atom.terms, t.isConst = true) :
    (Goal.new atom vars d).2.1 = vars := by
  unfold Goal.new
  exact goalNewFold_vars_ground atom.terms _ h

/-- The sub-goal fold never touches the binding when every atom is all
constants. -/
theorem goalsNewFold_vars_ground :
    ∀ (atoms : List Atom) (acc : List Goal × Binding × DataSet),
      (∀ a ∈ atoms, ∀ t ∈ a.terms, t.isConst = true) →
      (atoms.foldl goalsNewStep acc).2.1 = acc.2.1 := by
  intro atoms
  induction atoms with
  | nil => intro acc _; rfl
  | cons a as ih =>
    intro acc h
    rw [List.foldl_cons, ih _ (fun u hu => h u (by simp [hu]))]
    show (Goal.new a acc.2.1 acc.2.2).2.1 = acc.2.1
    exact goalNew_vars_ground a _ _ (h a (by simp))

/-- `Query::new` yields an empty binding on an all-ground query. -/
theorem queryNew_vars_ground (qs : QuerySyntax) (d : DataSet)
    (h : ∀ a ∈ qs, ∀ t ∈ a.terms, t.isConst = true) :
    (Query.new qs d).1.vars = [] := by
  unfold Query.new
  exact goalsNewFold_vars_ground qs _ h

/-- C10: a rule with zero distinct variable slots steps to the empty
set whatever the data set holds; a query with zero distinct variables
has no satisfying bindings; and so a query whose atoms are all ground
always gets an empty answer list. -/
theorem ground_enumerates_nothing_c10 :
    (∀ (r : Rule) (d : DataSet), r.vars.length = 0 → r.step d = ∅) ∧
      (∀ (q : Query) (d : DataSet), q.vars.length = 0 → q.bindings d = ∅) ∧
      (∀ (d : DataSet) (qs : QuerySyntax),
        (∀ a ∈ qs, ∀ t ∈ a.terms, t.isConst = true) →
        (d.query qs).2 = []) := by
  refine ⟨step_empty_of_no_vars, bindings_empty_of_no_vars, fun d qs h => ?_⟩
  have hvars : (Query.new qs d).1.vars = [] := queryNew_vars_ground qs d h
  show ((Query.new qs d).2).search (Query.new qs d).1 = []
  unfold DataSet.search
  rw [bindings_empty_of_no_vars _ _ (by rw [hvars]; rfl), Finset.sort_empty]
  rfl

/-- C10 at concrete inputs: the ground rule, the ground query, and the
ground query syntax `p(a)` all enumerate nothing against `exampleDS`,
even though the fact `p(a)` is present. -/
theorem ground_enumerates_nothing_c10_witness :
    groundRule.step exampleDS = ∅ ∧ groundQuery.bindings exampleDS = ∅ ∧
      (exampleDS.query exampleGroundQS).2 = [] ∧ [0] ∈ relAt exampleDS 0 :=
  ⟨ground_enumerates_nothing_c10.1 groundRule exampleDS (by decide),
   ground_enumerates_nothing_c10.2.1 groundQuery exampleDS (by decide),
   ground_enumerates_nothing_c10.2.2 exampleDS exampleGroundQS (by decide),
   by decide⟩

/-! ### The query frame condition -/

/-- `declare_relation` keeps rules and `last_len`, and at most appends
one fresh empty relation. -/
theorem declare_relation_inv (d : DataSet) (name : String) :
    (d.declare_relation name).2.rules = d.rules ∧
      (d.declare_relation name).2.last_len = d.last_len ∧
      ∃ k, (d.declare_relation name).2.relations =
        d.relations ++ List.replicate k ∅ := by
  simp only [DataSet.declare_relation]
  split
  · exact ⟨rfl, rfl, 1, rfl⟩
  · exact ⟨rfl, rfl, 0, by simp⟩

/-- The term-resolving fold only touches the name pools. -/
theorem goalNewFold_ds :
    ∀ (ts : List TermSyntax) (acc : List Term × Binding × DataSet),
      (ts.foldl goalNewStep acc).2.2.rules = acc.2.2.rules ∧
        (ts.foldl goalNewStep acc).2.2.last_len = acc.2.2.last_len ∧
        (ts.foldl goalNewStep acc).2.2.relations = acc.2.2.relations := by
  intro ts
  induction ts with
  | nil => intro acc; exact ⟨rfl, rfl, rfl⟩
  | cons t ts ih =>
    intro acc
    rw [List.foldl_cons]
    obtain ⟨h1, h2, h3⟩ := ih (goalNewStep acc t)
    cases t with
    | const c => exact ⟨h1, h2, h3⟩
    | var v => exact ⟨h1, h2, h3⟩

/-- `Goal::new` keeps rules and `last_len`, and at most appends fresh
empty relations. -/
theorem goalNew_ds (atom : Atom) (vars : Binding) (d : DataSet) :
    (Goal.new atom vars d).2.2.rules = d.rules ∧
      (Goal.new atom vars d).2.2.last_len = d.last_len ∧
      ∃ k, (Goal.new atom vars d).2.2.relations =
        d.relations ++ List.replicate k ∅ := by
  obtain ⟨h1, h2, k, h3⟩ := declare_relation_inv d atom.relation
  obtain ⟨g1, g2, g3⟩ := goalNewFold_ds atom.terms
    ([], vars, (d.declare_relation atom.relation).2)
  exact ⟨g1.trans h1, g2.trans h2, k, g3.trans h3⟩

/-- The sub-goal fold keeps rules and `last_len`, and at most appends
fresh empty relations. -/
theorem goalsNewFold_ds :
    ∀ (atoms : List Atom) (acc : List Goal × Binding × DataSet),
      (atoms.foldl goalsNewStep acc).2.2.rules = acc.2.2.rules ∧
        (atoms.foldl goalsNewStep acc).2.2.last_len = acc.2.2.last_len ∧
        ∃ k, (atoms.foldl goalsNewStep acc).2.2.relations =
          acc.2.2.relations ++ List.replicate k ∅ := by
  intro atoms
  induction atoms with
  | nil => intro acc; exact ⟨rfl, rfl, 0, by simp⟩
  | cons a as ih =>
    intro acc
    rw [List.foldl_cons]
    obtain ⟨h1, h2, k1, h3⟩ := ih (goalsNewStep acc a)
    obtain ⟨g1, g2, k2, g3⟩ := goalNew_ds a acc.2.1 acc.2.2
    refine ⟨h1.trans g1, h2.trans g2, k2 + k1, ?_⟩
    rw [h3]
    show (Goal.new a acc.2.1 acc.2.2).2.2.relations ++ _ = _
    rw [g3, List.append_assoc, ← List.replicate_add]

/-- `Query::new` keeps rules and `last_len`, and at most appends fresh
empty relations. -/
theorem queryNew_ds (qs : QuerySyntax) (d : DataSet) :
    (Query.new qs d).2.rules = d.rules ∧
      (Query.new qs d).2.last_len = d.last_len ∧
      ∃ k, (Query.new qs d).2.relations = d.relations ++ List.replicate k ∅ :=
  goalsNewFold_ds qs ([], [], d)

/-- Appending empty relations does not change the fact count. -/
theorem len_append_replicate (d d' : DataSet) (k : Nat)
    (h : d'.relations = d.relations ++ List.replicate k ∅) :
    d'.len = d.len := by
  unfold DataSet.len
  rw [h, List.map_append, List.sum_append, List.map_replicate]
  simp

/-- Appending empty relations changes no pre-existing relation. -/
theorem relAt_append_replicate {d d' : DataSet} {k : Nat}
    (h : d'.relations = d.relations ++ List.replicate k ∅) {i : Nat}
    (hi : i < d.relations.length) : relAt d' i = relAt d i := by
  unfold relAt
  rw [h]
  exact List.getD_append _ _ _ _ hi

/-- C9: `DataSet::query` is read-only with respect to the fact base —
the total fact count, the tuple set of every relation that existed
before the call, and the rule list are unchanged (only the name pools
may grow, plus freshly declared relations, which start empty). -/
theorem query_frame_c9 (d : DataSet) (qs : QuerySyntax) :
    (d.query qs).1.len = d.len ∧
      (∀ i, i < d.relations.length → relAt (d.query qs).1 i = relAt d i) ∧
      (d.query qs).1.rules = d.rules := by
  obtain ⟨h1, h2, k, h3⟩ := queryNew_ds qs d
  exact ⟨len_append_replicate _ _ k h3,
    fun i hi => relAt_append_replicate h3 hi, h1⟩

/-- C9 at the example: querying `p(X)` against the ingested program
changes neither the fact count nor relation 0's tuples. -/
theorem query_frame_c9_witness :
    (exampleDS.query exampleQS).1.len = exampleDS.len ∧
      relAt (exampleDS.query exampleQS).1 0 = relAt exampleDS 0 :=
  ⟨(query_frame_c9 exampleDS exampleQS).1,
   (query_frame_c9 exampleDS exampleQS).2.1 0 (by decide)⟩

end Datalog
